import Mathlib

/-!
Verification of the TikTok trending-scraper service.

The definitions below are shallow embeddings of the JavaScript source:
timestamps are modelled as integer epoch milliseconds, JS numbers used in
the ranking arithmetic as rationals, JS `Map` as a function into `Option`,
and the canonical video record as a Lean structure.  Each definition names
the source function it embeds.
-/

namespace TikTok

/-- Canonical video record, as built by `mapVideoData` / `mapFromSIGI` /
`extractFromDOM` in the source.  `published_at` is the parsed epoch-ms
timestamp of the ISO string (`none` when the source field was absent);
`score` and `hours_since_post` are the fields added at ranking time by
`getTrendingTop50`. -/
structure Record where
  video_id : String
  video_url : String
  author_username : String
  caption : String
  hashtags : List String
  views : Nat
  likes : Nat
  comments : Nat
  shares : Nat
  published_at : Option Int
  source : String
  score : Rat
  hours_since_post : Rat
deriving DecidableEq, Repr

/-- Embedding of class `SimpleCache` (server.js:333-363): the JS `Map` is a
function from keys to stored `(value, expires)` pairs, `ttl` the configured
time-to-live in ms. -/
structure SimpleCache (K V : Type) where
  cache : K → Option (V × Int)
  ttl : Int

/-- `SimpleCache.prototype.set`: stores `value` with `expires = now + ttl`. -/
def SimpleCache.set {K V : Type} [DecidableEq K] (c : SimpleCache K V) (k : K) (v : V)
    (now : Int) : SimpleCache K V :=
  { c with cache := Function.update c.cache k (some (v, now + c.ttl)) }

/-- `SimpleCache.prototype.get`: returns `none` when the key is absent; when
`Date.now() > item.expires` it deletes the entry and returns `none`;
otherwise it returns the stored value and leaves the map untouched. -/
def SimpleCache.get {K V : Type} [DecidableEq K] (c : SimpleCache K V) (k : K)
    (now : Int) : Option V × SimpleCache K V :=
  match c.cache k with
  | none => (none, c)
  | some (v, expires) =>
      if expires < now then (none, { c with cache := Function.update c.cache k none })
      else (some v, c)

/-- C5: a `set` followed immediately by `get` of the same key returns the
stored value, and once strictly more than `ttl` has elapsed after the `set`,
a `get` returns null and that read deletes the expired entry from the map. -/
theorem C5_cache_roundtrip {K V : Type} [DecidableEq K] (c : SimpleCache K V)
    (k : K) (v : V) (t t2 : Int) (httl : 0 ≤ c.ttl) (helapsed : t + c.ttl < t2) :
    ((c.set k v t).get k t).1 = some v
    ∧ ((c.set k v t).get k t2).1 = none
    ∧ ((c.set k v t).get k t2).2.cache k = none := by
  have hk : (c.set k v t).cache k = some (v, t + c.ttl) := by
    simp [SimpleCache.set, Function.update_same]
  refine ⟨?_, ?_, ?_⟩
  · simp only [SimpleCache.get, hk]
    have : ¬ (t + c.ttl < t) := by omega
    simp [this]
  · simp [SimpleCache.get, hk, helapsed]
  · simp [SimpleCache.get, hk, helapsed, Function.update_same]

/-- Concrete cache used to witness the cache theorems: ttl 100 ms, key 1 set
to value 5 at time 0. -/
def cacheW : SimpleCache Nat Nat :=
  SimpleCache.set { cache := fun _ => none, ttl := 100 } 1 5 0

theorem C5_cache_roundtrip_witness :
    (0 : Int) ≤ (100 : Int) ∧ (0 : Int) + (100 : Int) < 250
    ∧ ((SimpleCache.set { cache := fun _ => none, ttl := 100 } 1 5 0).get 1 0).1 = some 5
    ∧ ((SimpleCache.set { cache := fun _ => none, ttl := 100 } 1 5 0).get 1 250).1 = none :=
  ⟨by decide, by decide,
    (C5_cache_roundtrip { cache := fun _ => none, ttl := 100 } 1 5 0 250
      (by decide) (by decide)).1,
    (C5_cache_roundtrip { cache := fun _ => none, ttl := 100 } 1 5 0 250
      (by decide) (by decide)).2.1⟩

/-- C9: a `get` at any time up to and including the stored expiry returns the
value and leaves the cache completely unchanged; the entry is deleted (and
null returned) only when the read time is strictly greater than the expiry;
in particular a read at exactly `set`-time + ttl still returns the value. -/
theorem C9_cache_expiry_boundary {K V : Type} [DecidableEq K] (c : SimpleCache K V)
    (k : K) (v : V) (expires now t : Int) (hk : c.cache k = some (v, expires)) :
    (now ≤ expires → c.get k now = (some v, c))
    ∧ (expires < now → (c.get k now).1 = none ∧ (c.get k now).2.cache k = none)
    ∧ ((c.set k v t).get k (t + c.ttl)).1 = some v := by
  refine ⟨?_, ?_, ?_⟩
  · intro h
    have : ¬ (expires < now) := by omega
    simp [SimpleCache.get, hk, this]
  · intro h
    simp [SimpleCache.get, hk, h, Function.update_same]
  · have hk2 : (c.set k v t).cache k = some (v, t + c.ttl) := by
      simp [SimpleCache.set, Function.update_same]
    have : ¬ (t + c.ttl < t + c.ttl) := by omega
    simp [SimpleCache.get, hk2, this]

theorem C9_cache_expiry_boundary_witness :
    cacheW.cache 1 = some (5, 100) ∧ (50 : Int) ≤ 100
    ∧ cacheW.get 1 50 = (some 5, cacheW) :=
  ⟨by simp [cacheW, SimpleCache.set, Function.update_same], by decide,
    (C9_cache_expiry_boundary cacheW 1 5 100 50 0
      (by simp [cacheW, SimpleCache.set, Function.update_same])).1 (by decide)⟩

/-- Embedding of the `/trending` handler's limit computation
(`Math.min(parseInt(req.query.limit ?? CONFIG.LIMIT_DEFAULT, 10) || CONFIG.LIMIT_DEFAULT, 100)`,
server.js:878-881).  The input is `none` when the query parameter is absent
or `parseInt` yields `NaN`; `some n` when it parses to `n`.  `n || 50`
replaces a parsed `0` (falsy) by the default 50; then `Math.min` clamps from
above by 100.  There is no clamp from below. -/
def effectiveLimit (parsed : Option Int) : Int :=
  let n : Int :=
    match parsed with
    | none => 50
    | some v => if v = 0 then 50 else v
  min n 100

/-- `arr.slice(0, e)` for a JS array: a negative end counts from the end of
the array, otherwise it is clamped to the length. -/
def jsSliceTo {α : Type} (l : List α) (e : Int) : List α :=
  if e < 0 then l.take (l.length + e).toNat else l.take e.toNat

/-- C6 counterexample: the claim says the limit is clamped to `[1,100]` so a
negative `N` is raised to at least 1; but the code applies only `Math.min`
with 100, so `limit=-5` stays `-5` (and a parsed `0` becomes 50, not 1). -/
theorem C6_limit_counterexample :
    effectiveLimit (some (-5)) = -5
    ∧ ¬ (1 ≤ effectiveLimit (some (-5)))
    ∧ effectiveLimit (some 0) = 50 := by
  decide

/-- C6 amended: the effective limit defaults to 50 when `N` is absent,
unparsable, or parses to `0`; it is clamped from above to 100 (so for any
positive request at most 100 videos are returned), but a negative `N`
passes through unclamped. -/
theorem C6_limit_amended (q : Option Int) (n : Int) (vids : List Record) :
    effectiveLimit none = 50
    ∧ effectiveLimit (some 0) = 50
    ∧ effectiveLimit q ≤ 100
    ∧ (q = some n → n ≠ 0 → effectiveLimit q = min n 100)
    ∧ (1 ≤ n →
        1 ≤ effectiveLimit (some n)
        ∧ (jsSliceTo vids (effectiveLimit (some n))).length ≤ 100) := by
  refine ⟨by rfl, by rfl, ?_, ?_, ?_⟩
  · unfold effectiveLimit
    match q with
    | none => simp
    | some v => by_cases hv : v = 0 <;> simp [hv]
  · intro hq hn
    subst hq
    simp [effectiveLimit, hn]
  · intro hn
    have h0 : ¬ (n = 0) := by omega
    have hlim : effectiveLimit (some n) = min n 100 := by simp [effectiveLimit, h0]
    refine ⟨by rw [hlim]; omega, ?_⟩
    rw [hlim]
    have hpos : ¬ ((min n 100 : Int) < 0) := by omega
    simp only [jsSliceTo, hpos, if_false]
    have h1 : (vids.take (min n 100).toNat).length ≤ (min n 100).toNat :=
      List.length_take_le _ _
    have h2 : (min n 100).toNat ≤ 100 := by omega
    omega

theorem C6_limit_amended_witness :
    (some (7 : Int)) = some 7 ∧ (7 : Int) ≠ 0 ∧ (1 : Int) ≤ 7
    ∧ effectiveLimit (some 7) = min 7 100
    ∧ 1 ≤ effectiveLimit (some 7) :=
  ⟨rfl, by decide, by decide,
    (C6_limit_amended (some 7) 7 []).2.2.2.1 rfl (by decide),
    ((C6_limit_amended (some 7) 7 []).2.2.2.2 (by decide)).1⟩

/-!  Deduplication by `video_id` (C1).

`getExploreVideos` (server.js:790-793) deduplicates with
`allVideos.filter((video, index, self) => index === self.findIndex(v => v.video_id === video.video_id))`,
which keeps exactly the first occurrence of each `video_id`.  The recursion
below walks the list with the set of ids already seen, which yields the same
list (an element survives the JS filter iff its index is the first index
carrying its id, i.e. iff its id has not been seen earlier). -/

/-- First-occurrence deduplication by a key, with the set of already-seen
keys as an accumulator. -/
def keyedDedupAux {α β : Type} (key : α → β) [DecidableEq β] :
    List β → List α → List α
  | _, [] => []
  | seen, x :: xs =>
      if key x ∈ seen then keyedDedupAux key seen xs
      else x :: keyedDedupAux key (key x :: seen) xs

/-- The dedup of server.js:790-793: keep the first record seen for each
`video_id`. -/
def dedupById (l : List Record) : List Record :=
  keyedDedupAux (fun r => r.video_id) [] l

/-- Strategy fidelity order as worded by the spec (structured-state >
network-intercept > DOM-scrape), on the `source` tags the code emits. -/
def specPriority (s : String) : Nat :=
  if s = "JSON_extraction" then 3
  else if s = "API_intercept" then 2
  else if s = "DOM_extraction" then 1
  else 0

theorem keyedDedupAux_sublist {α β : Type} (key : α → β) [DecidableEq β]
    (seen : List β) (l : List α) : List.Sublist (keyedDedupAux key seen l) l := by
  induction l generalizing seen with
  | nil => simp [keyedDedupAux]
  | cons x xs ih =>
      simp only [keyedDedupAux]
      split
      · exact (ih seen).trans (List.sublist_cons_self x xs)
      · exact (ih (key x :: seen)).cons₂ x

theorem mem_keyedDedupAux {α β : Type} (key : α → β) [DecidableEq β]
    {seen : List β} {l : List α} {a : α} (h : a ∈ keyedDedupAux key seen l) :
    a ∈ l ∧ key a ∉ seen := by
  induction l generalizing seen with
  | nil => simp [keyedDedupAux] at h
  | cons x xs ih =>
      simp only [keyedDedupAux] at h
      split at h
      · have := ih h
        exact ⟨List.mem_cons_of_mem x this.1, this.2⟩
      · rcases List.mem_cons.1 h with rfl | h2
        · exact ⟨List.mem_cons_self _ _, by assumption⟩
        · have := ih h2
          refine ⟨List.mem_cons_of_mem x this.1, fun hs => this.2 ?_⟩
          exact List.mem_cons_of_mem _ hs

theorem mem_map_keyedDedupAux {α β : Type} (key : α → β) [DecidableEq β]
    (seen : List β) (l : List α) (k : β) :
    k ∈ (keyedDedupAux key seen l).map key ↔ k ∈ l.map key ∧ k ∉ seen := by
  induction l generalizing seen with
  | nil => simp [keyedDedupAux]
  | cons x xs ih =>
      by_cases hk : key x ∈ seen
      · simp only [keyedDedupAux, if_pos hk, ih, List.map_cons, List.mem_cons]
        constructor
        · exact fun h => ⟨Or.inr h.1, h.2⟩
        · rintro ⟨hor, hns⟩
          rcases hor with rfl | h
          · exact absurd hk hns
          · exact ⟨h, hns⟩
      · simp only [keyedDedupAux, if_neg hk, ih, List.map_cons, List.mem_cons]
        constructor
        · rintro (rfl | ⟨hB, hns⟩)
          · exact ⟨Or.inl rfl, hk⟩
          · exact ⟨Or.inr hB, fun hC => hns (Or.inr hC)⟩
        · rintro ⟨hor, hnC⟩
          by_cases hkx : k = key x
          · exact Or.inl hkx
          · rcases hor with h1 | hB
            · exact absurd h1 hkx
            · exact Or.inr ⟨hB, fun h => h.elim hkx hnC⟩

theorem nodup_map_keyedDedupAux {α β : Type} (key : α → β) [DecidableEq β]
    (seen : List β) (l : List α) : ((keyedDedupAux key seen l).map key).Nodup := by
  induction l generalizing seen with
  | nil => simp [keyedDedupAux]
  | cons x xs ih =>
      simp only [keyedDedupAux]
      split
      · exact ih seen
      · simp only [List.map_cons, List.nodup_cons]
        refine ⟨fun hmem => ?_, ih (key x :: seen)⟩
        have := (mem_map_keyedDedupAux key (key x :: seen) xs (key x)).1 hmem
        exact this.2 (List.mem_cons_self _ _)

theorem find_keyedDedupAux {α β : Type} (key : α → β) [DecidableEq β]
    {seen : List β} {l : List α} {a : α} (h : a ∈ keyedDedupAux key seen l) :
    l.find? (fun x => decide (key x = key a)) = some a := by
  induction l generalizing seen with
  | nil => simp [keyedDedupAux] at h
  | cons x xs ih =>
      simp only [keyedDedupAux] at h
      split at h
      · rename_i hseen
        have hmem := mem_keyedDedupAux key h
        have hne : ¬ (key x = key a) := fun he => hmem.2 (he ▸ hseen)
        rw [List.find?_cons_of_neg _ (by simpa using hne)]
        exact ih h
      · rcases List.mem_cons.1 h with rfl | h2
        · rw [List.find?_cons_of_pos _ (by simp)]
        · have hmem := mem_keyedDedupAux key h2
          have hne : ¬ (key x = key a) := fun he => hmem.2 (he ▸ List.mem_cons_self _ _)
          rw [List.find?_cons_of_neg _ (by simpa using hne)]
          exact ih h2

/-- A DOM-scraped record (counters all zero, `source` tag
`DOM_extraction`) used in concrete instances. -/
def recD : Record :=
  { video_id := "1", video_url := "u", author_username := "a",
    caption := "", hashtags := [], views := 0, likes := 0,
    comments := 0, shares := 0, published_at := none,
    source := "DOM_extraction", score := 0, hours_since_post := 0 }

/-- A structured-state (JSON) record with the same `video_id` as `recD`,
used in concrete instances. -/
def recJ : Record :=
  { video_id := "1", video_url := "u", author_username := "a",
    caption := "c", hashtags := [], views := 5, likes := 5,
    comments := 5, shares := 5, published_at := some 0,
    source := "JSON_extraction", score := 0, hours_since_post := 0 }

/-- C1 counterexample: merging a DOM-scraped record and a structured-state
(JSON) record with the same `videoId` keeps the DOM one because it came
first — the code never compares strategy priorities, contradicting
"the record discovered by the higher-fidelity strategy wins". -/
theorem C1_dedup_counterexample :
    ¬ (∀ r ∈ dedupById [recD, recJ], ∀ x ∈ [recD, recJ],
        x.video_id = r.video_id → specPriority x.source ≤ specPriority r.source) := by
  decide

/-- C1 amended: the merge keeps exactly one record per `videoId` — always
the first one seen in accumulation order, regardless of which strategy
produced it (the code performs no priority comparison). -/
theorem C1_dedup_amended (l : List Record) (r : Record) (id : String) :
    ((dedupById l).map (fun x => x.video_id)).Nodup
    ∧ (id ∈ (dedupById l).map (fun x => x.video_id) ↔ id ∈ l.map (fun x => x.video_id))
    ∧ (r ∈ dedupById l →
        r ∈ l ∧ l.find? (fun x => decide (x.video_id = r.video_id)) = some r) := by
  refine ⟨nodup_map_keyedDedupAux _ [] l, ?_, fun h => ?_⟩
  · rw [dedupById, mem_map_keyedDedupAux]
    simp
  · exact ⟨(mem_keyedDedupAux _ h).1, find_keyedDedupAux _ h⟩

theorem C1_dedup_amended_witness :
    recD ∈ dedupById [recD, recJ]
    ∧ recD ∈ [recD, recJ]
    ∧ [recD, recJ].find? (fun x => decide (x.video_id = recD.video_id)) = some recD :=
  ⟨by decide,
    ((C1_dedup_amended [recD, recJ] recD "1").2.2 (by decide)).1,
    ((C1_dedup_amended [recD, recJ] recD "1").2.2 (by decide)).2⟩

/-!  Hashtag extraction (C7).

`extractHashtags` (server.js:487-491):
`text.match(/#[\p{L}\p{N}_]+/gu)` then `[...new Set(matches)].slice(0, 10)`,
with `if (!text) return []`.  The Unicode character class
letter/digit/underscore is abstracted as a parameter `isWC : Char → Bool`;
the global regex match is the scanner `matchTags`, which at a `#` whose
successor is a word character takes the maximal word-character run (the
regex is greedy and the runs cannot backtrack), emits the token, and
resumes after it; at any other position it advances one character, exactly
as the regex engine does on a failed match. -/

/-- Scanner for `#[\p{L}\p{N}_]+` with explicit fuel (one unit per consumed
position, so `text.length` always suffices): at a `#` whose successor is a
word character it takes the maximal word-character run, emits the token and
resumes after the run; any other position is skipped, as the regex engine
does on a failed match. -/
def matchTagsF (isWC : Char → Bool) : Nat → List Char → List (List Char)
  | 0, _ => []
  | _ + 1, [] => []
  | fuel + 1, c :: rest =>
      if c = '#' ∧ rest.takeWhile isWC ≠ [] then
        ('#' :: rest.takeWhile isWC) ::
          matchTagsF isWC fuel (rest.drop (rest.takeWhile isWC).length)
      else matchTagsF isWC fuel rest

/-- All matches of `#[\p{L}\p{N}_]+` over the text, in order. -/
def matchTags (isWC : Char → Bool) (text : List Char) : List (List Char) :=
  matchTagsF isWC text.length text

/-- `[...new Set(m)]`: insertion-order deduplication. -/
def firstDedup {α : Type} [DecidableEq α] (l : List α) : List α :=
  keyedDedupAux (fun a => a) [] l

/-- `extractHashtags` of server.js:487-491 (text as a character list,
tokens as character lists). -/
def extractHashtags (isWC : Char → Bool) (text : List Char) : List (List Char) :=
  (firstDedup (matchTags isWC text)).take 10

/-- A hashtag token: `#` followed by one or more word characters. -/
def isHashTok (isWC : Char → Bool) (t : List Char) : Prop :=
  ∃ w, t = '#' :: w ∧ w ≠ [] ∧ ∀ c ∈ w, isWC c = true

theorem matchTagsF_tok (isWC : Char → Bool) :
    ∀ fuel l t, t ∈ matchTagsF isWC fuel l → isHashTok isWC t := by
  intro fuel
  induction fuel with
  | zero => intro l t ht; simp [matchTagsF] at ht
  | succ n ih =>
      intro l t ht
      match l with
      | [] => simp [matchTagsF] at ht
      | c :: rest =>
          rw [matchTagsF] at ht
          split at ht
          · rename_i hcond
            rcases List.mem_cons.1 ht with rfl | h2
            · exact ⟨rest.takeWhile isWC, rfl, hcond.2,
                fun d hd => List.mem_takeWhile_imp hd⟩
            · exact ih _ t h2
          · exact ih _ t ht

theorem matchTags_tok (isWC : Char → Bool) (l : List Char) (t : List Char)
    (h : t ∈ matchTags isWC l) : isHashTok isWC t :=
  matchTagsF_tok isWC l.length l t h

theorem mem_firstDedup {α : Type} [DecidableEq α] (l : List α) (a : α) :
    a ∈ firstDedup l ↔ a ∈ l := by
  constructor
  · exact fun h => (mem_keyedDedupAux _ h).1
  · intro h
    have := (mem_map_keyedDedupAux (fun a : α => a) [] l a).2
    simpa using this (by simpa using h)

theorem nodup_firstDedup {α : Type} [DecidableEq α] (l : List α) :
    (firstDedup l).Nodup := by
  have := nodup_map_keyedDedupAux (fun a : α => a) [] l
  simpa using this

/-- C7: `extractHashtags` yields only tokens of the form `#` followed by a
nonempty run of word characters, in the order of their first occurrence in
the match list (a sublist of it), with no duplicates, at most 10 of them;
empty input yields the empty list; and whenever there are at most 10
distinct matches, the output contains exactly the matched tokens. -/
theorem C7_extractHashtags (isWC : Char → Bool) (text : List Char) :
    extractHashtags isWC [] = []
    ∧ (extractHashtags isWC text).length ≤ 10
    ∧ (extractHashtags isWC text).Nodup
    ∧ List.Sublist (extractHashtags isWC text) (matchTags isWC text)
    ∧ (∀ t ∈ extractHashtags isWC text, isHashTok isWC t)
    ∧ ((firstDedup (matchTags isWC text)).length ≤ 10 →
        ∀ t, t ∈ extractHashtags isWC text ↔ t ∈ matchTags isWC text) := by
  refine ⟨rfl, ?_, ?_, ?_, ?_, ?_⟩
  · exact List.length_take_le _ _
  · exact (nodup_firstDedup _).sublist (List.take_sublist _ _)
  · exact (List.take_sublist _ _).trans (keyedDedupAux_sublist _ [] _)
  · intro t ht
    have h1 : t ∈ firstDedup (matchTags isWC text) :=
      (List.take_sublist _ _).mem ht
    exact matchTags_tok isWC text t ((mem_firstDedup _ _).1 h1)
  · intro hlen t
    rw [extractHashtags, List.take_of_length_le hlen, mem_firstDedup]

theorem C7_extractHashtags_witness :
    (firstDedup (matchTags (fun c => c.isAlpha) ("go #fun and #fun #go now".toList))).length ≤ 10
    ∧ (∀ t, t ∈ extractHashtags (fun c => c.isAlpha) ("go #fun and #fun #go now".toList)
          ↔ t ∈ matchTags (fun c => c.isAlpha) ("go #fun and #fun #go now".toList)) :=
  ⟨by decide,
    (C7_extractHashtags (fun c => c.isAlpha) ("go #fun and #fun #go now".toList)).2.2.2.2.2
      (by decide)⟩

/-!  Recency filter, scoring, sort and backfill (C2, C3, C4).

Embedding of `getTrendingTop50` steps 3-4 (part_000 lines 160-186 /
part_002 lines 160-189).  Times are epoch milliseconds; JS number
arithmetic in the scoring is modelled over the rationals;
`Number(x.toFixed(3))` is rounding to the nearest thousandth (half up,
all scores being nonnegative). -/

/-- `withinHours(iso, h)` = `iso && now - new Date(iso).getTime() <= h * 3600 * 1000`
(a missing `published_at` is falsy, so the record is rejected). -/
def withinHours (now : Int) (h : Int) (r : Record) : Bool :=
  match r.published_at with
  | none => false
  | some t => decide (now - t ≤ h * 3600000)

/-- `let recent = items.filter(r => withinHours(r.published_at, 24));
if (recent.length < 50) recent = items.filter(r => withinHours(r.published_at, 48));` -/
def recencyFilter (now : Int) (items : List Record) : List Record :=
  let recent := items.filter (withinHours now 24)
  if recent.length < 50 then items.filter (withinHours now 48) else recent

/-- `new Date(r.published_at).getTime()` on the records being scored
(`new Date(null)` is epoch 0, matching `getD 0`). -/
def pubMs (r : Record) : Int := r.published_at.getD 0

/-- `const hours = Math.max(1, (now - new Date(r.published_at).getTime()) / 3_600_000)` -/
def hoursOf (now : Int) (r : Record) : Rat :=
  max 1 (((now - pubMs r : Int) : Rat) / 3600000)

/-- `const interactions = (r.likes||0) + 2*(r.comments||0) + 3*(r.shares||0)` -/
def interOf (r : Record) : Rat :=
  (r.likes : Rat) + 2 * (r.comments : Rat) + 3 * (r.shares : Rat)

/-- `const score = perHour + er * 1000 * 0.25` with
`perHour = interactions / hours` and
`er = interactions / Math.max(1, r.views || 0)`. -/
def rawScore (now : Int) (r : Record) : Rat :=
  interOf r / hoursOf now r + (interOf r / max 1 ((r.views : Rat))) * 1000 * (1 / 4)

/-- `Number(x.toFixed(3))` for nonnegative `x`. -/
def roundTo3 (q : Rat) : Rat := ((⌊q * 1000 + 1 / 2⌋ : Int) : Rat) / 1000

/-- `Number(x.toFixed(1))` for nonnegative `x`. -/
def roundTo1 (q : Rat) : Rat := ((⌊q * 10 + 1 / 2⌋ : Int) : Rat) / 10

/-- `{ ...r, score: Number(score.toFixed(3)), hours_since_post: Number(hours.toFixed(1)) }` -/
def scoreRecord (now : Int) (r : Record) : Record :=
  { r with score := roundTo3 (rawScore now r),
           hours_since_post := roundTo1 (hoursOf now r) }

/-- `const scored = recent.map(r => ...)` -/
def scoredOf (now : Int) (items : List Record) : List Record :=
  (recencyFilter now items).map (scoreRecord now)

/-- Comparator order of `scored.sort((a, b) => b.score - a.score)`:
`a` precedes `b` when its stored score is at least `b`'s. -/
def scoreDescRel (a b : Record) : Prop := b.score ≤ a.score

instance : DecidableRel scoreDescRel :=
  fun a b => inferInstanceAs (Decidable (b.score ≤ a.score))

instance : IsTotal Record scoreDescRel :=
  ⟨fun a b => le_total b.score a.score⟩

instance : IsTrans Record scoreDescRel :=
  ⟨fun _ _ _ h1 h2 => le_trans h2 h1⟩

/-- `scored.sort((a, b) => b.score - a.score)` (stable descending sort). -/
def sortByScoreDesc (l : List Record) : List Record :=
  List.insertionSort scoreDescRel l

/-- `let top = scored.slice(0, 50)` -/
def topStage (now : Int) (items : List Record) : List Record :=
  (sortByScoreDesc (scoredOf now items)).take 50

/-- `b.likes + b.comments + b.shares`, the raw-engagement sort key of the
backfill. -/
def rawEng (r : Record) : Nat := r.likes + r.comments + r.shares

/-- Comparator order of `.sort((a, b) => (b.likes+b.comments+b.shares) - (a.likes+a.comments+a.shares))`. -/
def rawDescRel (a b : Record) : Prop := rawEng b ≤ rawEng a

instance : DecidableRel rawDescRel :=
  fun a b => inferInstanceAs (Decidable (rawEng b ≤ rawEng a))

instance : IsTotal Record rawDescRel :=
  ⟨fun a b => Nat.le_total (rawEng b) (rawEng a)⟩

instance : IsTrans Record rawDescRel :=
  ⟨fun _ _ _ h1 h2 => le_trans h2 h1⟩

def sortByRawDesc (l : List Record) : List Record :=
  List.insertionSort rawDescRel l

/-- `items.filter(r => !top.find(t => t.video_id === r.video_id))` -/
def eligiblePool (items top : List Record) : List Record :=
  items.filter (fun r => ! top.any (fun t => t.video_id == r.video_id))

/-- `if (top.length < 50) { const filler = ...; top = top.concat(filler) }` -/
def backfill (items top : List Record) : List Record :=
  if top.length < 50 then
    top ++ (sortByRawDesc (eligiblePool items top)).take (50 - top.length)
  else top

/-- The whole ranking stage of `getTrendingTop50` (filter, score, sort,
slice, backfill) on the merged record set. -/
def getTrendingTop50 (now : Int) (items : List Record) : List Record :=
  backfill items (topStage now items)

/-- Scoring formula as worded by the spec (section 4.5), for comparison
with the code's stored score:
`interactions = likes + 2*comments + 3*shares`,
`perHour = interactions / max(hoursSincePost, 1)`,
`engagement ratio = interactions / max(views, 1)`,
`score = perHour + ratio * 1000 * 0.25`,
with `hoursSincePost = (now - publishedAt) / 3600s`. -/
def specScore (now : Int) (r : Record) : Rat :=
  let inter : Rat := (r.likes : Rat) + 2 * (r.comments : Rat) + 3 * (r.shares : Rat)
  let hrs : Rat := ((now - pubMs r : Int) : Rat) / 3600000
  inter / max hrs 1 + (inter / max ((r.views : Rat)) 1) * 1000 * (25 / 100)

theorem rawScore_eq_specScore (now : Int) (r : Record) :
    rawScore now r = specScore now r := by
  rw [rawScore, specScore, hoursOf, interOf,
    max_comm (1 : Rat) (((now - pubMs r : Int) : Rat) / 3600000),
    max_comm (1 : Rat) ((r.views : Rat))]
  norm_num

/-- A record published at epoch 0 with one like and one view, giving the
non-representable exact score 751/3; used in the C2 instances. -/
def recScore : Record :=
  { video_id := "2", video_url := "u", author_username := "a",
    caption := "", hashtags := [], views := 1, likes := 1,
    comments := 0, shares := 0, published_at := some 0,
    source := "JSON_extraction", score := 0, hours_since_post := 0 }

/-- C2 counterexample: the stored ranking score is
`Number(score.toFixed(3))`, i.e. the formula value rounded to three
decimals, which differs from the exact formula value whenever the latter
needs more than three decimals (here 751/3 is stored as 250.333). -/
theorem C2_score_counterexample :
    (scoreRecord 10800000 recScore).score ≠ specScore 10800000 recScore := by
  have h1 : rawScore 10800000 recScore = 751 / 3 := by
    rw [rawScore, interOf, hoursOf, pubMs]
    norm_num [recScore, max_def]
  have h2 : specScore 10800000 recScore = 751 / 3 := by
    rw [specScore, pubMs]
    norm_num [recScore, max_def]
  have h3 : (scoreRecord 10800000 recScore).score = roundTo3 (751 / 3) := by
    rw [scoreRecord, h1]
  have h4 : (⌊(751 / 3 : Rat) * 1000 + 1 / 2⌋ : Int) = 250333 := by
    rw [Int.floor_eq_iff]
    norm_num
  rw [h3, h2, roundTo3, h4]
  norm_num

/-- C2 amended: every scored record carries the spec's formula value
rounded to three decimals (`toFixed(3)`); the scored list is exactly the
recency-filtered records mapped through the scorer, it is sorted
descending by this stored score, the sort is a permutation of the scored
list, and the top stage takes its first 50 entries. -/
theorem C2_score_amended (now : Int) (items : List Record) :
    (∀ r, r ∈ scoredOf now items ↔
        ∃ s, s ∈ recencyFilter now items ∧ r = scoreRecord now s)
    ∧ (∀ s ∈ recencyFilter now items,
        (scoreRecord now s).score = roundTo3 (specScore now s))
    ∧ List.Pairwise scoreDescRel (sortByScoreDesc (scoredOf now items))
    ∧ (sortByScoreDesc (scoredOf now items)).Perm (scoredOf now items)
    ∧ topStage now items = (sortByScoreDesc (scoredOf now items)).take 50 := by
  refine ⟨?_, ?_, ?_, ?_, rfl⟩
  · intro r
    simp only [scoredOf, List.mem_map]
    constructor
    · rintro ⟨s, hs, rfl⟩; exact ⟨s, hs, rfl⟩
    · rintro ⟨s, hs, rfl⟩; exact ⟨s, hs, rfl⟩
  · intro s _
    rw [scoreRecord]
    simp only
    rw [rawScore_eq_specScore]
  · exact List.sorted_insertionSort scoreDescRel _
  · exact List.perm_insertionSort scoreDescRel _

theorem C2_score_amended_witness :
    (scoreRecord 10800000 recScore).score = roundTo3 (specScore 10800000 recScore)
    ∧ recScore ∈ recencyFilter 10800000 [recScore] :=
  ⟨(C2_score_amended 10800000 [recScore]).2.1 recScore
      (by simp [recencyFilter, withinHours, recScore]),
    by simp [recencyFilter, withinHours, recScore]⟩

theorem withinHours_iff (now h : Int) (r : Record) :
    withinHours now h r = true ↔
      ∃ t, r.published_at = some t ∧ now - t ≤ h * 3600000 := by
  rw [withinHours]
  match hp : r.published_at with
  | none => simp
  | some t => simp

/-- C3: when at least 50 merged records lie within 24 hours the recency
filter keeps exactly those; otherwise it instead keeps the records within
48 hours; a record lacking `publishedAt` is never in the recency-filtered
set, yet still belongs to the backfill candidate pool whenever its id has
not already been selected. -/
theorem C3_recency_window (now : Int) (items : List Record) (r : Record)
    (top : List Record) :
    (¬ (items.filter (withinHours now 24)).length < 50 →
        (r ∈ recencyFilter now items ↔
          r ∈ items ∧ ∃ t, r.published_at = some t ∧ now - t ≤ 24 * 3600000))
    ∧ ((items.filter (withinHours now 24)).length < 50 →
        (r ∈ recencyFilter now items ↔
          r ∈ items ∧ ∃ t, r.published_at = some t ∧ now - t ≤ 48 * 3600000))
    ∧ (r.published_at = none → r ∉ recencyFilter now items)
    ∧ (r.published_at = none → r ∈ items →
        (∀ t ∈ top, ¬ t.video_id = r.video_id) → r ∈ eligiblePool items top) := by
  refine ⟨?_, ?_, ?_, ?_⟩
  · intro hge
    rw [recencyFilter]
    simp only [if_neg hge, List.mem_filter, withinHours_iff]
  · intro hlt
    rw [recencyFilter]
    simp only [if_pos hlt, List.mem_filter, withinHours_iff]
  · intro hnone hmem
    have hfalse : ∀ hh : Int, ¬ withinHours now hh r = true := by
      intro hh hcontra
      rcases (withinHours_iff now hh r).1 hcontra with ⟨t, ht, _⟩
      rw [hnone] at ht
      exact Option.noConfusion ht
    rw [recencyFilter] at hmem
    split at hmem
    · exact hfalse 48 (List.mem_filter.1 hmem).2
    · exact hfalse 24 (List.mem_filter.1 hmem).2
  · intro _ hmem hids
    rw [eligiblePool, List.mem_filter]
    refine ⟨hmem, ?_⟩
    simp only [Bool.not_eq_eq_eq_not, Bool.not_true, List.any_eq_false]
    intro t ht
    simpa using hids t ht

/-- A record with no `published_at`, used in the C3 witness. -/
def recNoDate : Record :=
  { video_id := "3", video_url := "u", author_username := "a",
    caption := "", hashtags := [], views := 9, likes := 9,
    comments := 0, shares := 0, published_at := none,
    source := "JSON_extraction", score := 0, hours_since_post := 0 }

theorem C3_recency_window_witness :
    recNoDate.published_at = none
    ∧ recNoDate ∉ recencyFilter 0 [recNoDate]
    ∧ recNoDate ∈ eligiblePool [recNoDate] [] :=
  ⟨rfl,
    (C3_recency_window 0 [recNoDate] recNoDate []).2.2.1 rfl,
    (C3_recency_window 0 [recNoDate] recNoDate []).2.2.2 rfl (by decide)
      (by intro t ht; simp at ht)⟩

theorem length_filter_mono {α : Type} (l : List α) (p q : α → Bool)
    (h : ∀ x ∈ l, p x = true → q x = true) :
    (l.filter p).length ≤ (l.filter q).length := by
  induction l with
  | nil => simp
  | cons a as ih =>
      have ih2 := ih fun x hx => h x (List.mem_cons_of_mem a hx)
      cases hp : p a with
      | true =>
          have hq := h a (List.mem_cons_self a as) hp
          simp only [List.filter_cons, hp, hq, if_true, List.length_cons]
          omega
      | false =>
          have hne : ¬ (false = true) := by simp
          cases hq : q a with
          | true =>
              simp only [List.filter_cons, hp, hq, if_true, List.length_cons]
              rw [if_neg hne]
              omega
          | false =>
              simp only [List.filter_cons, hp, hq]
              rw [if_neg hne, if_neg hne]
              exact ih2

/-- C4: when fewer than `limit` (50) records survive scoring, the result is
the scored prefix followed by filler records drawn from the full merged
set: each filler record comes from the pool and its `videoId` differs from
every already-selected id (and from every other filler id, the merged set
having unique ids), the filler is ordered by raw `likes+comments+shares`
descending, and the result length is `min 50 (top.length + pool size)` —
i.e. filling stops exactly when the limit is reached or the eligible pool
is exhausted. -/
theorem C4_backfill (items top : List Record)
    (hlen : top.length < 50)
    (hnd : (items.map (fun r => r.video_id)).Nodup) :
    (backfill items top).take top.length = top
    ∧ (∀ r ∈ (backfill items top).drop top.length,
        r ∈ items ∧ ∀ t ∈ top, ¬ t.video_id = r.video_id)
    ∧ List.Pairwise rawDescRel ((backfill items top).drop top.length)
    ∧ (((backfill items top).drop top.length).map (fun r => r.video_id)).Nodup
    ∧ (backfill items top).length
        = min 50 (top.length + (eligiblePool items top).length) := by
  have hperm : (sortByRawDesc (eligiblePool items top)).Perm (eligiblePool items top) :=
    List.perm_insertionSort rawDescRel _
  rw [backfill, if_pos hlen]
  refine ⟨?_, ?_, ?_, ?_, ?_⟩
  · exact List.take_left top _
  · rw [List.drop_left]
    intro r hr
    have hr2 : r ∈ eligiblePool items top :=
      hperm.mem_iff.1 ((List.take_sublist _ _).mem hr)
    have := List.mem_filter.1 hr2
    refine ⟨this.1, fun t ht => ?_⟩
    have hany := this.2
    simp only [Bool.not_eq_eq_eq_not, Bool.not_true, List.any_eq_false] at hany
    simpa using hany t ht
  · rw [List.drop_left]
    exact (List.sorted_insertionSort rawDescRel _).sublist (List.take_sublist _ _)
  · rw [List.drop_left]
    have h1 : ((eligiblePool items top).map (fun r => r.video_id)).Nodup :=
      hnd.sublist ((List.filter_sublist _).map _)
    have h2 : ((sortByRawDesc (eligiblePool items top)).map (fun r => r.video_id)).Nodup :=
      (hperm.map _).nodup_iff.2 h1
    exact h2.sublist ((List.take_sublist _ _).map _)
  · rw [List.length_append, List.length_take, hperm.length_eq]
    omega

theorem C4_backfill_witness :
    ([] : List Record).length < 50
    ∧ (([recD] : List Record).map (fun r => r.video_id)).Nodup
    ∧ (backfill [recD] []).length
        = min 50 (([] : List Record).length + (eligiblePool [recD] []).length) :=
  ⟨by decide, by decide,
    (C4_backfill [recD] [] (by decide) (by decide)).2.2.2.2⟩

/-!  DOM-scrape strategy (C8).

`extractFromDOM` (server.js:561-594): for every anchor href matching
`/\/@([^/]+)\/video\/(\d+)/` it pushes a record with empty caption and
hashtags, all counters 0, `published_at: new Date().toISOString()` (the
extraction clock) and `source: 'DOM_extraction'`.  The regex search is
embedded directly: `[^/]+` cannot backtrack past a `/`, so the greedy
maximal run is the only candidate, and `.match` returns the leftmost
match. -/

/-- Try the regex `\/@([^/]+)\/video\/(\d+)` anchored at the head of `s`,
returning the two capture groups. -/
def matchVidAt (s : List Char) : Option (List Char × List Char) :=
  match s with
  | '/' :: '@' :: rest =>
      let u := rest.takeWhile (fun c => c != '/')
      if u.isEmpty then none
      else
        match rest.drop u.length with
        | '/' :: 'v' :: 'i' :: 'd' :: 'e' :: 'o' :: '/' :: rest2 =>
            let d := rest2.takeWhile (fun c => c.isDigit)
            if d.isEmpty then none else some (u, d)
        | _ => none
  | _ => none

/-- `href.match(/\/@([^/]+)\/video\/(\d+)/)`: leftmost match in the href. -/
def searchVid : List Char → Option (List Char × List Char)
  | [] => none
  | c :: rest =>
      match matchVidAt (c :: rest) with
      | some p => some p
      | none => searchVid rest

/-- `extractFromDOM` on the page's video-anchor hrefs, with `nowMs` the
extraction-time clock (`new Date()`). -/
def extractFromDOM (nowMs : Int) (hrefs : List (List Char)) : List Record :=
  hrefs.filterMap fun h =>
    (searchVid h).map fun p =>
      { video_id := String.mk p.2, video_url := String.mk h,
        author_username := String.mk p.1, caption := "", hashtags := [],
        views := 0, likes := 0, comments := 0, shares := 0,
        published_at := some nowMs, source := "DOM_extraction",
        score := 0, hours_since_post := 0 }

/-- C8: every DOM-scraped record has all four counters 0, empty caption and
hashtag list, and `publishedAt` equal to the extraction clock (never null);
hence whenever ranking happens within 24 hours of extraction the record
passes the 24-hour recency test. -/
theorem C8_dom_records (te now : Int) (hrefs : List (List Char)) (r : Record)
    (hr : r ∈ extractFromDOM te hrefs) :
    r.views = 0 ∧ r.likes = 0 ∧ r.comments = 0 ∧ r.shares = 0
    ∧ r.caption = "" ∧ r.hashtags = [] ∧ r.source = "DOM_extraction"
    ∧ r.published_at = some te
    ∧ (now - te ≤ 24 * 3600000 → withinHours now 24 r = true) := by
  rw [extractFromDOM, List.mem_filterMap] at hr
  rcases hr with ⟨h, _, hmap⟩
  rcases Option.map_eq_some'.1 hmap with ⟨p, _, hrec⟩
  subst hrec
  refine ⟨rfl, rfl, rfl, rfl, rfl, rfl, rfl, rfl, fun hwin => ?_⟩
  rw [withinHours]
  simpa using hwin

theorem C8_dom_records_witness :
    ({ video_id := "123", video_url := "/@alice/video/123",
       author_username := "alice", caption := "", hashtags := [],
       views := 0, likes := 0, comments := 0, shares := 0,
       published_at := some 0, source := "DOM_extraction",
       score := 0, hours_since_post := 0 } : Record)
      ∈ extractFromDOM 0 ["/@alice/video/123".toList]
    ∧ (0 : Int) - 0 ≤ 24 * 3600000
    ∧ withinHours 0 24
        { video_id := "123", video_url := "/@alice/video/123",
          author_username := "alice", caption := "", hashtags := [],
          views := 0, likes := 0, comments := 0, shares := 0,
          published_at := some 0, source := "DOM_extraction",
          score := 0, hours_since_post := 0 } = true :=
  ⟨by decide, by decide,
    (C8_dom_records 0 0 ["/@alice/video/123".toList]
      { video_id := "123", video_url := "/@alice/video/123",
        author_username := "alice", caption := "", hashtags := [],
        views := 0, likes := 0, comments := 0, shares := 0,
        published_at := some 0, source := "DOM_extraction",
        score := 0, hours_since_post := 0 }
      (by decide)).2.2.2.2.2.2.2.2 (by decide)⟩

/-!  Per-IP rate limiter (C10).

`checkRateLimit` (part_003 lines 85-102) with
`RATE_LIMIT_WINDOW = 60 * 1000` and `RATE_LIMIT_MAX = 10`: the stored
timestamp list for the ip is filtered down to entries strictly newer than
`now - window` and stored back; if 10 or more remain the request is
rejected, otherwise `now` is pushed.  The middleware (lines 105-114)
answers 429 and does not call `next()` exactly when `checkRateLimit`
returns false.  The state of a single ip is modelled; requests arrive with
non-decreasing `Date.now()` values. -/

def rlWindowMs : Int := 60000

def rlMaxReq : Nat := 10

/-- One `checkRateLimit(ip)` call: `(allowed, new stored list)`. -/
def rlStep (st : List Int) (now : Int) : Bool × List Int :=
  let requests := st.filter fun time => decide (now - rlWindowMs < time)
  if rlMaxReq ≤ requests.length then (false, requests)
  else (true, requests ++ [now])

/-- The middleware: `some 429` when the request is rejected (the handler is
never reached), `none` when `next()` runs. -/
def rlRespond (st : List Int) (now : Int) : Option Nat :=
  if (rlStep st now).1 then none else some 429

/-- Process a request trace from state `st`, accumulating the timestamps of
the served (admitted) requests. -/
def rlRun (st served : List Int) : List Int → List Int × List Int
  | [] => (st, served)
  | now :: rest =>
      rlRun (rlStep st now).2
        (if (rlStep st now).1 then served ++ [now] else served) rest

/-- Number of served requests inside the trailing window `(t - 60000, t]`. -/
def windowCount (served : List Int) (t : Int) : Nat :=
  (served.filter fun x => decide (t - rlWindowMs < x) && decide (x ≤ t)).length

theorem rlRun_window_bound (times : List Int) :
    ∀ (st served : List Int) (T : Int),
      times.Pairwise (fun a b => a ≤ b) →
      (∀ x ∈ times, T ≤ x) →
      st = served.filter (fun x => decide (T - rlWindowMs < x)) →
      (∀ u, windowCount served u ≤ rlMaxReq) →
      ∀ u, windowCount (rlRun st served times).2 u ≤ rlMaxReq := by
  induction times with
  | nil =>
      intro st served T _ _ _ hW u
      exact hW u
  | cons now rest ih =>
      intro st served T hsort hlb hst hW
      have hTnow : T ≤ now := hlb now (List.mem_cons_self _ _)
      have hrest_sort : rest.Pairwise (fun a b => a ≤ b) :=
        (List.pairwise_cons.1 hsort).2
      have hrest_lb : ∀ x ∈ rest, now ≤ x :=
        (List.pairwise_cons.1 hsort).1
      have hreq : st.filter (fun time => decide (now - rlWindowMs < time))
          = served.filter (fun x => decide (now - rlWindowMs < x)) := by
        rw [hst, List.filter_filter]
        apply List.filter_congr
        intro x _
        cases hN : decide (now - rlWindowMs < x) with
        | true =>
            have hx : now - rlWindowMs < x := of_decide_eq_true hN
            have hx2 : T - rlWindowMs < x := by omega
            simp [hx2]
        | false => simp
      by_cases hfull : rlMaxReq ≤ (st.filter fun time => decide (now - rlWindowMs < time)).length
      · -- rejected: served unchanged, state shrunk to the filtered list
        have hstep1 : (rlStep st now).1 = false := by
          rw [rlStep]
          simp only [if_pos hfull]
        have hstep2 : (rlStep st now).2
            = st.filter fun time => decide (now - rlWindowMs < time) := by
          rw [rlStep]
          simp only [if_pos hfull]
        intro u
        rw [rlRun, hstep1, if_neg (by simp)]
        rw [hstep2]
        exact ih _ served now hrest_sort hrest_lb hreq hW u
      · -- admitted: now appended to both the state and the served list
        have hstep1 : (rlStep st now).1 = true := by
          rw [rlStep]
          simp only [if_neg hfull]
        have hstep2 : (rlStep st now).2
            = (st.filter fun time => decide (now - rlWindowMs < time)) ++ [now] := by
          rw [rlStep]
          simp only [if_neg hfull]
        have hcount : ∀ u, windowCount (served ++ [now]) u ≤ rlMaxReq := by
          intro u
          rw [windowCount, List.filter_append]
          by_cases hu : (decide (u - rlWindowMs < now) && decide (now ≤ u)) = true
          · have hu2 : now ≤ u := by
              have hu' := hu
              rw [Bool.and_eq_true] at hu'
              exact of_decide_eq_true hu'.2
            have h9 : (served.filter fun x =>
                decide (u - rlWindowMs < x) && decide (x ≤ u)).length
                ≤ (served.filter fun x => decide (now - rlWindowMs < x)).length := by
              apply length_filter_mono
              intro x _ hx
              rw [Bool.and_eq_true] at hx
              have h1 : u - rlWindowMs < x := of_decide_eq_true hx.1
              exact decide_eq_true (by omega)
            have h10 : (served.filter fun x => decide (now - rlWindowMs < x)).length
                ≤ rlMaxReq - 1 := by
              rw [← hreq]
              omega
            simp only [List.length_append, List.filter_cons, hu, if_true,
              List.filter_nil, List.length_cons, List.length_nil]
            have hmax : 1 ≤ rlMaxReq := by norm_num [rlMaxReq]
            omega
          · simp only [List.filter_cons, List.filter_nil]
            rw [if_neg hu]
            simpa [windowCount, List.filter_nil] using hW u
        have hinv : (st.filter fun time => decide (now - rlWindowMs < time)) ++ [now]
            = (served ++ [now]).filter (fun x => decide (now - rlWindowMs < x)) := by
          have hnowin : decide (now - rlWindowMs < now) = true :=
            decide_eq_true (by norm_num [rlWindowMs])
          have hone : List.filter (fun x => decide (now - rlWindowMs < x)) [now] = [now] := by
            rw [List.filter_cons, hnowin]
            simp
          rw [List.filter_append, hreq, hone]
        intro u
        rw [rlRun, hstep1, if_pos rfl, hstep2]
        exact ih _ (served ++ [now]) now hrest_sort hrest_lb hinv hcount u

/-- C10: over any trace of requests from one client IP with non-decreasing
clock values, at most 10 requests are served inside any trailing 60-second
window; a request arriving when the window already holds 10 admitted
timestamps is answered 429 and never reaches a route handler; and after
every check the limiter state retains only timestamps strictly newer than
`now - 60000`. -/
theorem C10_rate_limiter (times : List Int) (st : List Int) (now t : Int)
    (hsort : times.Pairwise (fun a b => a ≤ b)) :
    windowCount (rlRun [] [] times).2 t ≤ 10
    ∧ (∀ x ∈ (rlStep st now).2, now - rlWindowMs < x)
    ∧ (rlRespond st now = some 429 ↔
        10 ≤ (st.filter fun time => decide (now - rlWindowMs < time)).length)
    ∧ (rlRespond st now = some 429 → ¬ (rlStep st now).1 = true) := by
  refine ⟨?_, ?_, ?_, ?_⟩
  · match times with
    | [] =>
        simp [rlRun, windowCount]
    | a :: rest =>
        refine rlRun_window_bound (a :: rest) [] [] a hsort ?_ (by simp) (by
          intro u
          simp [windowCount]) t
        intro x hx
        rcases List.mem_cons.1 hx with rfl | h2
        · exact le_refl x
        · exact (List.pairwise_cons.1 hsort).1 x h2
  · intro x hx
    rw [rlStep] at hx
    split at hx
    · exact of_decide_eq_true (List.mem_filter.1 hx).2
    · rcases List.mem_append.1 hx with h1 | h2
      · exact of_decide_eq_true (List.mem_filter.1 h1).2
      · have : x = now := by simpa using h2
        subst this
        norm_num [rlWindowMs]
  · rw [rlRespond]
    by_cases hfull : rlMaxReq ≤ (st.filter fun time => decide (now - rlWindowMs < time)).length
    · have hstep : (rlStep st now).1 = false := by
        rw [rlStep]
        simp only [if_pos hfull]
      rw [hstep, if_neg (by simp : ¬ (false = true))]
      exact ⟨fun _ => hfull, fun _ => rfl⟩
    · have hstep : (rlStep st now).1 = true := by
        rw [rlStep]
        simp only [if_neg hfull]
      rw [hstep, if_pos rfl]
      constructor
      · intro hcontra
        exact Option.noConfusion hcontra
      · intro hge
        exact absurd hge hfull
  · intro h429
    rw [rlRespond] at h429
    intro htrue
    rw [if_pos htrue] at h429
    exact Option.noConfusion h429

theorem C10_rate_limiter_witness :
    ([0, 1000, 70000] : List Int).Pairwise (fun a b => a ≤ b)
    ∧ windowCount (rlRun [] [] [0, 1000, 70000]).2 70000 ≤ 10 :=
  ⟨by decide,
    (C10_rate_limiter [0, 1000, 70000] [] 0 70000 (by decide)).1⟩

end TikTok
